import Mathlib

/-!
Shallow embedding of the `obfus` library core: the Squares counter PRNG
(`src/prng.rs`), the Fisher-Yates shuffle/reverse pair (`src/shuffle.rs`),
and the fixed-capacity staging buffer (`src/crypto.rs`, `src/utils.rs`).

Machine integers (`u64`, `usize`) are modelled as `Nat` with explicit
reduction modulo `2 ^ 64` wherever the Rust code performs wrapping
arithmetic; byte buffers are modelled as `List Nat`.
-/

namespace Obfus

/-- `2 ^ 64`, the modulus of Rust's `u64` wrapping arithmetic. -/
def U64 : Nat := 2 ^ 64

/-- Rust `u64::wrapping_add`. -/
def wrapping_add (a b : Nat) : Nat := (a + b) % U64

/-- Rust `u64::wrapping_mul`. -/
def wrapping_mul (a b : Nat) : Nat := (a * b) % U64

/-- Rust `u64::wrapping_sub` (on representatives below `U64` it is
subtraction modulo `2 ^ 64`). -/
def wrapping_sub (a b : Nat) : Nat := (a + (U64 - b % U64)) % U64

/-- The expression `(x >> 32) | (x << 32)` on `u64`, as it appears four
times in `squares`: the left shift wraps modulo `2 ^ 64`. -/
def rot32 (x : Nat) : Nat := (x >>> 32) ||| ((x <<< 32) % U64)

/-- `const KEY: u64 = 0x7d8b63f54b86ca59` from `src/prng.rs`. -/
def KEY : Nat := 0x7d8b63f54b86ca59

/-- `squares` from `src/prng.rs`: the Squares counter PRNG round function. -/
def squares (key counter : Nat) : Nat :=
  let x0 := wrapping_mul counter key
  let y := x0
  let z := wrapping_add y key
  let x1 := rot32 (wrapping_add (wrapping_mul x0 x0) y)
  let x2 := rot32 (wrapping_add (wrapping_mul x1 x1) z)
  let x3 := rot32 (wrapping_add (wrapping_mul x2 x2) y)
  let t := wrapping_add (wrapping_mul x3 x3) z
  let x4 := rot32 t
  t ^^^ ((wrapping_add (wrapping_mul x4 x4) y) >>> 32)

/-- The `Squares` PRNG state from `src/prng.rs`: a key and a counter
(called `seed` in the source). -/
structure Squares where
  key : Nat
  seed : Nat

/-- `Squares::with_key`. -/
def Squares.with_key (key seed : Nat) : Squares := ⟨key, seed⟩

/-- `Squares::new`: default key, provided seed. -/
def Squares.new (seed : Nat) : Squares := Squares.with_key KEY seed

/-- `Squares::next`: returns the draw at the current counter, then
increments the counter (wrapping). -/
def Squares.next (g : Squares) : Nat × Squares :=
  (squares g.key g.seed, ⟨g.key, wrapping_add g.seed 1⟩)

/-- `Squares::back`: returns the draw at the current counter, then
decrements the counter (wrapping). -/
def Squares.back (g : Squares) : Nat × Squares :=
  (squares g.key g.seed, ⟨g.key, wrapping_sub g.seed 1⟩)

/-- The list of `n` successive draws produced by repeated `next` calls. -/
def Squares.nextN (g : Squares) : Nat → List Nat
  | 0 => []
  | n + 1 => (g.next).1 :: (g.next).2.nextN n

/-- The list of `n` successive draws produced by repeated `back` calls. -/
def Squares.backN (g : Squares) : Nat → List Nat
  | 0 => []
  | n + 1 => (g.back).1 :: (g.back).2.backN n

/-- The byte exchange `swap` from `src/shuffle.rs`, on list indices:
save the left value, copy right over left, write the saved value to the
right slot.  With `left = right` the raw-pointer original copies a cell
onto itself and restores it, i.e. it leaves the list unchanged, exactly
as this sequential translation does. -/
def swap (l : List Nat) (left right : Nat) : List Nat :=
  let tmp := l.getD left 0
  let l1 := l.set left (l.getD right 0)
  l1.set right tmp

/-- The `FisherYates` shuffler state from `src/shuffle.rs`. -/
structure FisherYates where
  seed : Nat

/-- `FisherYates::with_seed`. -/
def FisherYates.with_seed (seed : Nat) : FisherYates := ⟨seed⟩

/-- The `while idx < len` loop of `FisherYates::shuffle`, with the
remaining iteration count `len - idx` made explicit as fuel (the loop
increments `idx` by one each round, so it runs exactly `len` times). -/
def shuffleGo (len : Nat) : Nat → Squares → Nat → List Nat → List Nat
  | 0, _, _, l => l
  | fuel + 1, prng, idx, l =>
    let step := prng.next
    let swap_idx := step.1 % len
    shuffleGo len fuel step.2 (idx + 1) (swap l idx swap_idx)

/-- `FisherYates::shuffle`. -/
def FisherYates.shuffle (fy : FisherYates) (l : List Nat) : List Nat :=
  let len := l.length
  shuffleGo len len (Squares.new fy.seed) 0 l

/-- The `while idx < len` loop of `FisherYates::reverse`: `idx` counts
down and wraps below zero, at which point `idx < len` fails, so the loop
runs exactly `len` times; fuel makes that count explicit. -/
def reverseGo (len : Nat) : Nat → Squares → Nat → List Nat → List Nat
  | 0, _, _, l => l
  | fuel + 1, prng, idx, l =>
    let step := prng.back
    let swap_idx := step.1 % len
    reverseGo len fuel step.2 (idx - 1) (swap l idx swap_idx)

/-- `FisherYates::reverse`.  The source computes the starting index as
`len.wrapping_sub(1)`; the wrap only happens at `len = 0`, where the loop
body never runs, so `len - 1` on `Nat` yields the identical result. -/
def FisherYates.reverse (fy : FisherYates) (l : List Nat) : List Nat :=
  let len := l.length
  let idx := len - 1
  reverseGo len len (Squares.new (wrapping_add fy.seed idx)) idx l

/-- `secure_memset` from `src/utils.rs`: write `value` to every position
of the region. -/
def secure_memset (data : List Nat) (value : Nat) : List Nat :=
  data.map (fun _ => value)

/-- `TAG_SIZE` from `src/crypto.rs`. -/
def TAG_SIZE : Nat := 16

/-- `required_buffer_size` from `src/crypto.rs`. -/
def required_buffer_size (size : Nat) : Nat := size + TAG_SIZE

/-- The staging `Buffer<N>` from `src/crypto.rs`: `N` bytes of storage
and a logical length. -/
structure Buffer (N : Nat) where
  data : List Nat
  len : Nat

/-- `Buffer::new`: zero-filled storage, length 0. -/
def Buffer.new (N : Nat) : Buffer N := ⟨List.replicate N 0, 0⟩

/-- `Buffer::extend_from_slice` from `src/crypto.rs`: `none` models the
`Err(aes_gcm::aead::Error)` branch.  `N.saturating_sub(len)` is `Nat`
subtraction, and the saturating additions cannot saturate because the
guard bounds `len + other.len()` by `N`. -/
def Buffer.extend_from_slice {N : Nat} (b : Buffer N) (other : List Nat) :
    Option (Buffer N) :=
  let remaining_capacity := N - b.len
  if other.length ≤ remaining_capacity then
    some ⟨b.data.take b.len ++ other ++ b.data.drop (b.len + other.length),
          b.len + other.length⟩
  else
    none

/-- `Buffer::truncate` from `src/crypto.rs`: when shrinking, the tail
`[len, self.len)` of the logically valid region is cleared through
`secure_memset` and the length is updated; otherwise nothing happens. -/
def Buffer.truncate {N : Nat} (b : Buffer N) (len : Nat) : Buffer N :=
  if len < b.len then
    ⟨b.data.take len ++ secure_memset ((b.data.take b.len).drop len) 0 ++
       b.data.drop b.len, len⟩
  else
    b

/-! ### Basic facts about the modulus and the PRNG round function -/

theorem U64_pos : 0 < U64 := by
  unfold U64
  exact Nat.pos_pow_of_pos 64 (by omega)

/-- `squares` only depends on the counter modulo `2 ^ 64`: the first
operation is a wrapping multiplication. -/
theorem squares_mod_counter (key c : Nat) :
    squares key (c % U64) = squares key c := by
  simp only [squares, wrapping_mul, Nat.mod_mul_mod]

/-! ### Swap lemmas -/

theorem swap_eq (l : List Nat) (i j : Nat) :
    swap l i j = (l.set i (l.getD j 0)).set j (l.getD i 0) := rfl

theorem length_swap (l : List Nat) (i j : Nat) :
    (swap l i j).length = l.length := by
  simp [swap_eq]

theorem set_getD_self (l : List Nat) (i : Nat) : l.set i (l.getD i 0) = l := by
  induction l generalizing i with
  | nil => simp
  | cons x xs ih =>
    cases i with
    | zero => simp
    | succ n => simpa using ih n

theorem swap_self (l : List Nat) (i : Nat) : swap l i i = l := by
  rw [swap_eq, List.set_set, set_getD_self]

theorem getD_set_self (l : List Nat) (i a : Nat) (h : i < l.length) :
    (l.set i a).getD i 0 = a := by
  simp [List.getElem?_set_self h]

theorem getD_set_ne (l : List Nat) (i j a : Nat) (h : i ≠ j) :
    (l.set i a).getD j 0 = l.getD j 0 := by
  simp [List.getElem?_set_ne h]

theorem getD_eq_getElem_of_lt (l : List Nat) (i : Nat) (h : i < l.length) :
    l.getD i 0 = l[i] := by
  simp [List.getElem?_eq_getElem h]

theorem getElem?_swap_right (l : List Nat) (i j : Nat) (hi : i < l.length)
    (hj : j < l.length) :
    (swap l i j)[j]? = l[i]? := by
  rw [swap_eq,
    List.getElem?_set_self (show j < (l.set i (l.getD j 0)).length by simpa using hj),
    getD_eq_getElem_of_lt l i hi, List.getElem?_eq_getElem hi]

theorem getElem?_swap_left (l : List Nat) (i j : Nat) (hi : i < l.length)
    (hj : j < l.length) (hij : i ≠ j) :
    (swap l i j)[i]? = l[j]? := by
  rw [swap_eq, List.getElem?_set_ne (show j ≠ i from fun h => hij h.symm),
    List.getElem?_set_self hi, getD_eq_getElem_of_lt l j hj,
    List.getElem?_eq_getElem hj]

theorem getElem?_swap_ne (l : List Nat) (i j k : Nat) (hki : k ≠ i)
    (hkj : k ≠ j) :
    (swap l i j)[k]? = l[k]? := by
  rw [swap_eq, List.getElem?_set_ne (show j ≠ k from fun h => hkj h.symm),
    List.getElem?_set_ne (show i ≠ k from fun h => hki h.symm)]

theorem swap_swap (l : List Nat) (i j : Nat) (hi : i < l.length)
    (hj : j < l.length) :
    swap (swap l i j) i j = l := by
  by_cases hij : i = j
  · subst hij
    rw [swap_self, swap_self]
  · have hi' : i < (swap l i j).length := by rwa [length_swap]
    have hj' : j < (swap l i j).length := by rwa [length_swap]
    apply List.ext_getElem?
    intro k
    by_cases hki : k = i
    · rw [hki, getElem?_swap_left _ i j hi' hj' hij,
        getElem?_swap_right l i j hi hj]
    · by_cases hkj : k = j
      · rw [hkj, getElem?_swap_right _ i j hi' hj',
          getElem?_swap_left l i j hi hj hij]
      · rw [getElem?_swap_ne _ i j k hki hkj, getElem?_swap_ne l i j k hki hkj]

theorem count_set (l : List Nat) (i a b : Nat) (h : i < l.length) :
    (l.set i a).count b + (if b = l.getD i 0 then 1 else 0)
      = l.count b + (if b = a then 1 else 0) := by
  induction l generalizing i with
  | nil => simp at h
  | cons x xs ih =>
    cases i with
    | zero =>
      simp only [List.set_cons_zero, List.count_cons, List.getD_cons_zero,
        beq_iff_eq]
      split_ifs <;> omega
    | succ n =>
      have hn : n < xs.length := by simpa using h
      have := ih n hn
      simp only [List.set_cons_succ, List.count_cons, List.getD_cons_succ,
        beq_iff_eq]
      split_ifs at this ⊢ <;> omega

theorem count_swap (l : List Nat) (i j b : Nat) (hi : i < l.length)
    (hj : j < l.length) :
    (swap l i j).count b = l.count b := by
  have hset : (l.set i (l.getD j 0)).getD j 0 = l.getD j 0 := by
    by_cases hij : i = j
    · subst hij; exact getD_set_self l i _ hi
    · exact getD_set_ne l i j _ hij
  have h1 := count_set (l.set i (l.getD j 0)) j (l.getD i 0) b
    (by simpa using hj)
  have h2 := count_set l i (l.getD j 0) b hi
  rw [hset] at h1
  rw [swap_eq]
  split_ifs at h1 h2 <;> omega

theorem swap_perm (l : List Nat) (i j : Nat) (hi : i < l.length)
    (hj : j < l.length) :
    List.Perm (swap l i j) l := by
  rw [List.perm_iff_count]
  intro b
  exact count_swap l i j b hi hj

/-! ### Folding a list of swaps -/

/-- Applying a sequence of exchanges `(left, right)` to a list, in order. -/
def applySwaps (l : List Nat) (ps : List (Nat × Nat)) : List Nat :=
  ps.foldl (fun acc p => swap acc p.1 p.2) l

theorem applySwaps_nil (l : List Nat) : applySwaps l [] = l := rfl

theorem applySwaps_cons (l : List Nat) (p : Nat × Nat) (ps : List (Nat × Nat)) :
    applySwaps l (p :: ps) = applySwaps (swap l p.1 p.2) ps := rfl

theorem applySwaps_append (l : List Nat) (ps qs : List (Nat × Nat)) :
    applySwaps l (ps ++ qs) = applySwaps (applySwaps l ps) qs := by
  simp [applySwaps]

theorem length_applySwaps (l : List Nat) (ps : List (Nat × Nat)) :
    (applySwaps l ps).length = l.length := by
  induction ps generalizing l with
  | nil => rfl
  | cons p ps ih => rw [applySwaps_cons, ih, length_swap]

theorem applySwaps_perm (l : List Nat) (ps : List (Nat × Nat))
    (h : ∀ p ∈ ps, p.1 < l.length ∧ p.2 < l.length) :
    List.Perm (applySwaps l ps) l := by
  induction ps generalizing l with
  | nil => exact List.Perm.refl l
  | cons p ps ih =>
    rw [applySwaps_cons]
    have hp := h p (by simp)
    have step : List.Perm (swap l p.1 p.2) l := swap_perm l p.1 p.2 hp.1 hp.2
    refine List.Perm.trans (ih (swap l p.1 p.2) ?_) step
    intro q hq
    rw [length_swap]
    exact h q (by simp [hq])

theorem applySwaps_reverse_applySwaps (l : List Nat) (ps : List (Nat × Nat))
    (h : ∀ p ∈ ps, p.1 < l.length ∧ p.2 < l.length) :
    applySwaps (applySwaps l ps) ps.reverse = l := by
  induction ps generalizing l with
  | nil => rfl
  | cons p ps ih =>
    have hp := h p (by simp)
    rw [applySwaps_cons, List.reverse_cons, applySwaps_append,
      ih (swap l p.1 p.2) ?bounds]
    case bounds =>
      intro q hq
      rw [length_swap]
      exact h q (by simp [hq])
    rw [applySwaps_cons, applySwaps_nil]
    exact swap_swap l p.1 p.2 hp.1 hp.2

/-! ### Closed forms for the shuffle loops -/

/-- The swap pairs performed by `shuffle` with seed `s` on a buffer of
length `len`: at position `i` the counter is `s + i` (mod `2 ^ 64`). -/
def shufflePairs (s len : Nat) : List (Nat × Nat) :=
  (List.range len).map (fun i => (i, squares KEY ((s + i) % U64) % len))

theorem shuffleGo_eq_applySwaps (k len : Nat) :
    ∀ (n c idx : Nat) (l : List Nat),
      shuffleGo len n ⟨k, c⟩ idx l
        = applySwaps l
            ((List.range n).map
              (fun t => (idx + t, squares k ((c + t) % U64) % len))) := by
  intro n
  induction n with
  | zero => intro c idx l; rfl
  | succ n ih =>
    intro c idx l
    rw [List.range_succ_eq_map, List.map_cons, List.map_map, applySwaps_cons]
    show shuffleGo len (n + 1) ⟨k, c⟩ idx l = _
    rw [shuffleGo]
    show shuffleGo len n ⟨k, wrapping_add c 1⟩ (idx + 1)
        (swap l idx (squares k c % len)) = _
    rw [show wrapping_add c 1 = (c + 1) % U64 from rfl, ih]
    have harg : (idx + 0, squares k ((c + 0) % U64) % len)
        = (idx, squares k c % len) := by
      rw [Nat.add_zero, Nat.add_zero, squares_mod_counter]
    rw [harg]
    congr 1
    apply List.map_congr_left
    intro t _
    show (idx + 1 + t, squares k (((c + 1) % U64 + t) % U64) % len)
        = (idx + (t + 1), squares k ((c + (t + 1)) % U64) % len)
    rw [Nat.mod_add_mod]
    have h1 : idx + 1 + t = idx + (t + 1) := by omega
    have h2 : c + 1 + t = c + (t + 1) := by omega
    rw [h1, h2]

theorem reverseGo_eq_applySwaps (k len : Nat) :
    ∀ (n s idx : Nat) (l : List Nat), n ≤ idx + 1 →
      reverseGo len n ⟨k, (s + idx) % U64⟩ idx l
        = applySwaps l
            ((List.range n).map
              (fun t => (idx - t, squares k ((s + (idx - t)) % U64) % len))) := by
  intro n
  induction n with
  | zero => intro s idx l _; rfl
  | succ n ih =>
    intro s idx l hn
    rw [List.range_succ_eq_map, List.map_cons, List.map_map, applySwaps_cons]
    show reverseGo len (n + 1) ⟨k, (s + idx) % U64⟩ idx l = _
    rw [reverseGo]
    show reverseGo len n ⟨k, wrapping_sub ((s + idx) % U64) 1⟩ (idx - 1)
        (swap l idx (squares k ((s + idx) % U64) % len)) = _
    have harg : (idx - 0, squares k ((s + (idx - 0)) % U64) % len)
        = (idx, squares k ((s + idx) % U64) % len) := by
      rw [Nat.sub_zero]
    rw [harg]
    cases n with
    | zero => rfl
    | succ m =>
      have hidx : 1 ≤ idx := by omega
      have hseed : wrapping_sub ((s + idx) % U64) 1 = (s + (idx - 1)) % U64 := by
        unfold wrapping_sub
        rw [Nat.mod_add_mod]
        have h1 : 1 % U64 = 1 := Nat.mod_eq_of_lt (by norm_num [U64])
        rw [h1]
        have h2 : s + idx + (U64 - 1) = s + (idx - 1) + U64 := by
          have := U64_pos
          omega
        rw [h2, Nat.add_mod_right]
      rw [hseed, ih s (idx - 1) _ (by omega)]
      refine congrArg _ (List.map_congr_left ?_)
      intro t _
      show (idx - 1 - t, squares k ((s + (idx - 1 - t)) % U64) % len)
        = (idx - (t + 1), squares k ((s + (idx - (t + 1))) % U64) % len)
      have h3 : idx - 1 - t = idx - (t + 1) := by omega
      rw [h3]

theorem shuffle_eq_applySwaps (fy : FisherYates) (l : List Nat) :
    fy.shuffle l = applySwaps l (shufflePairs fy.seed l.length) := by
  show shuffleGo l.length l.length ⟨KEY, fy.seed⟩ 0 l = _
  rw [shuffleGo_eq_applySwaps]
  unfold shufflePairs
  congr 1
  apply List.map_congr_left
  intro t _
  rw [Nat.zero_add]

theorem range_reverse_eq_map (n : Nat) :
    (List.range n).reverse = (List.range n).map (fun i => n - 1 - i) := by
  induction n with
  | zero => rfl
  | succ n ih =>
    have lhs : (List.range (n + 1)).reverse = n :: (List.range n).reverse := by
      rw [List.range_succ, List.reverse_append]
      rfl
    rw [lhs, List.range_succ_eq_map, List.map_cons, List.map_map, ih]
    congr 1
    apply List.map_congr_left
    intro t _
    show n - 1 - t = n + 1 - 1 - (t + 1)
    omega

theorem reverse_eq_applySwaps (fy : FisherYates) (l : List Nat) :
    fy.reverse l = applySwaps l (shufflePairs fy.seed l.length).reverse := by
  cases hl : l.length with
  | zero =>
    show reverseGo l.length l.length
        ⟨KEY, wrapping_add fy.seed (l.length - 1)⟩ (l.length - 1) l = _
    rw [hl]
    rfl
  | succ m =>
    show reverseGo l.length l.length
        ⟨KEY, wrapping_add fy.seed (l.length - 1)⟩ (l.length - 1) l = _
    rw [hl]
    rw [show wrapping_add fy.seed (m + 1 - 1) = (fy.seed + m) % U64 from rfl]
    rw [show m + 1 - 1 = m from rfl]
    rw [reverseGo_eq_applySwaps KEY (m + 1) (m + 1) fy.seed m l (by omega)]
    unfold shufflePairs
    rw [← List.map_reverse, range_reverse_eq_map, List.map_map]
    refine congrArg _ (List.map_congr_left ?_)
    intro t _
    show (m - t, squares KEY ((fy.seed + (m - t)) % U64) % (m + 1))
      = (m + 1 - 1 - t, squares KEY ((fy.seed + (m + 1 - 1 - t)) % U64) % (m + 1))
    rw [show m + 1 - 1 - t = m - t from rfl]

theorem shufflePairs_bounds (s len : Nat) :
    ∀ p ∈ shufflePairs s len, p.1 < len ∧ p.2 < len := by
  intro p hp
  unfold shufflePairs at hp
  rcases List.mem_map.mp hp with ⟨i, hi, rfl⟩
  have hilt : i < len := List.mem_range.mp hi
  exact ⟨hilt, Nat.mod_lt _ (by omega)⟩

theorem length_shuffle (fy : FisherYates) (l : List Nat) :
    (fy.shuffle l).length = l.length := by
  rw [shuffle_eq_applySwaps, length_applySwaps]

/-! ### Claim theorems: shuffle/reverse -/

/-- C1: for every seed `s` (the `Nat` model subsumes every `u64` value,
including `u64::MAX` and its neighbours, whose wrapping is handled by the
explicit `% 2 ^ 64` reductions) and every byte sequence `x` of any
length, `reverse` with the same seed undoes `shuffle`:
`reverse(s, shuffle(s, x)) = x`. -/
theorem shuffle_then_reverse_id (s : Nat) (x : List Nat) :
    (FisherYates.with_seed s).reverse ((FisherYates.with_seed s).shuffle x) = x := by
  have hlen : ((FisherYates.with_seed s).shuffle x).length = x.length :=
    length_shuffle _ x
  rw [reverse_eq_applySwaps, hlen, shuffle_eq_applySwaps]
  exact applySwaps_reverse_applySwaps x (shufflePairs s x.length)
    (shufflePairs_bounds s x.length)

/-- C4: for every seed and byte sequence, `shuffle` returns a permutation
of the input (same length, same multiset of values), and so does
`reverse`. -/
theorem shuffle_reverse_perm (s : Nat) (x : List Nat) :
    List.Perm ((FisherYates.with_seed s).shuffle x) x ∧
    ((FisherYates.with_seed s).shuffle x).length = x.length ∧
    List.Perm ((FisherYates.with_seed s).reverse x) x ∧
    ((FisherYates.with_seed s).reverse x).length = x.length := by
  have hs : List.Perm ((FisherYates.with_seed s).shuffle x) x := by
    rw [shuffle_eq_applySwaps]
    exact applySwaps_perm x _ (shufflePairs_bounds s x.length)
  have hr : List.Perm ((FisherYates.with_seed s).reverse x) x := by
    rw [reverse_eq_applySwaps]
    refine applySwaps_perm x _ ?_
    intro p hp
    exact shufflePairs_bounds s x.length p (List.mem_reverse.mp hp)
  exact ⟨hs, hs.length_eq, hr, hr.length_eq⟩

/-- C8: on the empty byte sequence both `shuffle` and `reverse` are
no-ops: the `while idx < len` loop never runs (so the `% len` with
`len = 0` is never evaluated), and the buffer is returned unchanged. -/
theorem shuffle_reverse_empty (s : Nat) :
    (FisherYates.with_seed s).shuffle [] = [] ∧
    (FisherYates.with_seed s).reverse [] = [] :=
  ⟨rfl, rfl⟩

/-- C10: on a non-empty buffer, `shuffle` performs exactly the exchanges
listed by `shufflePairs` and `reverse` the same exchanges in opposite
order; every such exchange touches only indices strictly below the
buffer length, and an exchange whose two indices coincide leaves the
buffer unchanged. -/
theorem swap_indices_in_bounds (s : Nat) (l : List Nat) (h : 0 < l.length) :
    (FisherYates.with_seed s).shuffle l
        = applySwaps l (shufflePairs s l.length) ∧
    (FisherYates.with_seed s).reverse l
        = applySwaps l (shufflePairs s l.length).reverse ∧
    (∀ p ∈ shufflePairs s l.length, p.1 < l.length ∧ p.2 < l.length) ∧
    (∀ p ∈ (shufflePairs s l.length).reverse,
        p.1 < l.length ∧ p.2 < l.length) ∧
    (∀ i, i < l.length → swap l i i = l) := by
  refine ⟨shuffle_eq_applySwaps _ l, reverse_eq_applySwaps _ l,
    shufflePairs_bounds s l.length, ?_, ?_⟩
  · intro p hp
    exact shufflePairs_bounds s l.length p (List.mem_reverse.mp hp)
  · intro i _
    exact swap_self l i

/-- Witness for C10 at a concrete non-empty buffer. -/
theorem swap_indices_in_bounds_witness :
    0 < ([3, 1, 4] : List Nat).length ∧
    (∀ p ∈ shufflePairs 7 ([3, 1, 4] : List Nat).length,
        p.1 < ([3, 1, 4] : List Nat).length ∧
        p.2 < ([3, 1, 4] : List Nat).length) := by
  have h : 0 < ([3, 1, 4] : List Nat).length := by decide
  exact ⟨h, (swap_indices_in_bounds 7 [3, 1, 4] h).2.2.1⟩

/-! ### The Squares round function against the specified algorithm -/

/-- 32-bit half swap as the spec describes it: the low half becomes the
high half and vice versa. -/
def swapHalves (x : Nat) : Nat := (x % 2 ^ 32) * 2 ^ 32 + x / 2 ^ 32

/-- Follows the spec's words for step 1-3 of the Squares draw:
`x0 = counter * key` wrapping, `y = x0`, `z = x0 + key` wrapping; four
rounds of `x = x*x + round_constant` (wrapping) then a 32-bit rotation
(half swap), with round constants `y, z, y, z`; the pre-rotation value
`t` of the last round is returned XORed with the high 32 bits of
`x*x + y` computed from the rotated `x`. -/
def squaresSpec (key counter : Nat) : Nat :=
  let x0 := (counter * key) % U64
  let y := x0
  let z := (x0 + key) % U64
  let r1 := swapHalves ((x0 * x0 + y) % U64)
  let r2 := swapHalves ((r1 * r1 + z) % U64)
  let r3 := swapHalves ((r2 * r2 + y) % U64)
  let t := (r3 * r3 + z) % U64
  let r4 := swapHalves t
  t ^^^ (((r4 * r4 + y) % U64) / 2 ^ 32)

theorem rot32_eq_swapHalves (x : Nat) (h : x < U64) :
    rot32 x = swapHalves x := by
  have hdiv : x / 2 ^ 32 < 2 ^ 32 := by
    rw [Nat.div_lt_iff_lt_mul (by norm_num)]
    calc x < U64 := h
    _ = 2 ^ 32 * 2 ^ 32 := by norm_num [U64]
  have hmod : (x * 2 ^ 32) % U64 = (x % 2 ^ 32) * 2 ^ 32 := by
    have : U64 = 2 ^ 32 * 2 ^ 32 := by norm_num [U64]
    rw [this, Nat.mul_mod_mul_right]
  rw [rot32, swapHalves, Nat.shiftRight_eq_div_pow, Nat.shiftLeft_eq, hmod,
    Nat.lor_comm, Nat.mul_comm (x % 2 ^ 32) (2 ^ 32),
    ← Nat.mul_add_lt_is_or hdiv]

theorem rot32_mod (y : Nat) : rot32 (y % U64) = swapHalves (y % U64) :=
  rot32_eq_swapHalves _ (Nat.mod_lt _ U64_pos)

/-- C5: the implemented `squares` computes exactly the algorithm the spec
describes (`squaresSpec`), for every key and counter. -/
theorem squares_eq_squaresSpec (key counter : Nat) :
    squares key counter = squaresSpec key counter := by
  simp only [squares, squaresSpec, wrapping_mul, wrapping_add,
    Nat.mod_add_mod, Nat.add_mod_mod, rot32_mod, Nat.shiftRight_eq_div_pow]

/-! ### The stateful Squares generator -/

theorem nextN_mod (key s : Nat) :
    ∀ n, (Squares.with_key key s).nextN n
      = (Squares.with_key key (s % U64)).nextN n := by
  intro n
  induction n generalizing s with
  | zero => rfl
  | succ n ih =>
    show squares key s :: (Squares.with_key key (wrapping_add s 1)).nextN n
      = squares key (s % U64)
          :: (Squares.with_key key (wrapping_add (s % U64) 1)).nextN n
    rw [squares_mod_counter]
    rw [show wrapping_add s 1 = (s + 1) % U64 from rfl,
      show wrapping_add (s % U64) 1 = (s % U64 + 1) % U64 from rfl,
      Nat.mod_add_mod]

theorem nextN_succ (key : Nat) :
    ∀ (n c : Nat), (Squares.with_key key c).nextN (n + 1)
      = (Squares.with_key key c).nextN n ++ [squares key ((c + n) % U64)] := by
  intro n
  induction n with
  | zero =>
    intro c
    show [squares key c] = [squares key ((c + 0) % U64)]
    rw [Nat.add_zero, squares_mod_counter]
  | succ n ih =>
    intro c
    show squares key c
          :: (Squares.with_key key (wrapping_add c 1)).nextN (n + 1)
      = (squares key c :: (Squares.with_key key (wrapping_add c 1)).nextN n)
          ++ [squares key ((c + (n + 1)) % U64)]
    rw [ih, List.cons_append]
    rw [show wrapping_add c 1 = (c + 1) % U64 from rfl, Nat.mod_add_mod]
    rw [show c + 1 + n = c + (n + 1) from by omega]

/-- C6: `next` returns the draw at the current counter and then
increments it modulo `2 ^ 64`; `back` returns the draw at the current
counter and then decrements it modulo `2 ^ 64`; consequently a forward
run of `k + 1` draws started at counter `s` is exactly the reverse of a
backward run of `k + 1` draws started at counter `s + k` (wrapping). -/
theorem next_back_replay :
    (∀ g : Squares, g.next
        = (squares g.key g.seed, ⟨g.key, (g.seed + 1) % U64⟩)) ∧
    (∀ g : Squares, g.back
        = (squares g.key g.seed, ⟨g.key, (g.seed + (U64 - 1)) % U64⟩)) ∧
    (∀ key s k, (Squares.with_key key ((s + k) % U64)).backN (k + 1)
        = ((Squares.with_key key s).nextN (k + 1)).reverse) := by
  refine ⟨fun g => rfl, ?_, ?_⟩
  · intro g
    show (squares g.key g.seed, (⟨g.key, wrapping_sub g.seed 1⟩ : Squares)) = _
    rw [show wrapping_sub g.seed 1 = (g.seed + (U64 - 1 % U64)) % U64 from rfl,
      Nat.mod_eq_of_lt (show (1 : Nat) < U64 by norm_num [U64])]
  · intro key s k
    induction k generalizing s with
    | zero =>
      show [squares key ((s + 0) % U64)] = [squares key s].reverse
      rw [Nat.add_zero, squares_mod_counter, List.reverse_singleton]
    | succ k ih =>
      show squares key ((s + (k + 1)) % U64)
            :: (Squares.with_key key
                (wrapping_sub ((s + (k + 1)) % U64) 1)).backN (k + 1)
        = ((Squares.with_key key s).nextN (k + 2)).reverse
      have hdec : wrapping_sub ((s + (k + 1)) % U64) 1 = (s + k) % U64 := by
        unfold wrapping_sub
        rw [Nat.mod_add_mod,
          Nat.mod_eq_of_lt (show (1 : Nat) < U64 by norm_num [U64]),
          show s + (k + 1) + (U64 - 1) = s + k + U64 from by
            have := U64_pos; omega,
          Nat.add_mod_right]
      rw [hdec, ih s, nextN_succ key (k + 1) s, List.reverse_append,
        List.reverse_singleton, List.singleton_append,
        show s + (k + 1) = s + k + 1 from by omega]

/-! ### Claim theorems: buffer and capacity helper -/

/-- C9: the capacity helper adds exactly the 16-byte tag size. -/
theorem required_buffer_size_eq (size : Nat) :
    required_buffer_size size = size + 16 := rfl

/-- C2: `truncate k` on a buffer with `k < len` zeroes exactly the
stored bytes at positions `[k, len)` (leaving positions below `k` and at
or above `len` untouched) and sets the length to `k`; with `k ≥ len` it
changes nothing — `truncate` never grows the buffer. -/
theorem truncate_spec {N : Nat} (b : Buffer N) (k : Nat)
    (hdata : b.data.length = N) (hlen : b.len ≤ N) :
    (k < b.len →
      (b.truncate k).len = k ∧
      (∀ i, i < k → (b.truncate k).data[i]? = b.data[i]?) ∧
      (∀ i, k ≤ i → i < b.len → (b.truncate k).data[i]? = some 0) ∧
      (∀ i, b.len ≤ i → (b.truncate k).data[i]? = b.data[i]?)) ∧
    (b.len ≤ k → b.truncate k = b) := by
  constructor
  · intro hk
    have htr : b.truncate k
        = ⟨b.data.take k ++ secure_memset ((b.data.take b.len).drop k) 0
            ++ b.data.drop b.len, k⟩ := by
      unfold Buffer.truncate
      rw [if_pos hk]
    have htk : (b.data.take k).length = k := by
      rw [List.length_take]
      omega
    have hmidlen : (secure_memset ((b.data.take b.len).drop k) 0).length
        = b.len - k := by
      simp only [secure_memset, List.length_map, List.length_drop,
        List.length_take]
      omega
    rw [htr]
    refine ⟨rfl, ?_, ?_, ?_⟩
    · intro i hi
      rw [List.append_assoc,
        List.getElem?_append_left (show i < (b.data.take k).length by omega),
        List.getElem?_take_of_lt hi]
    · intro i h1 h2
      rw [List.append_assoc,
        List.getElem?_append_right (show (b.data.take k).length ≤ i by omega),
        htk,
        List.getElem?_append_left
          (show i - k < (secure_memset ((b.data.take b.len).drop k) 0).length
            by omega)]
      have hik : i - k < ((b.data.take b.len).drop k).length := by
        simp only [List.length_drop, List.length_take]
        omega
      simp only [secure_memset, List.getElem?_map,
        List.getElem?_eq_getElem hik]
      rfl
    · intro i hi
      rw [List.append_assoc,
        List.getElem?_append_right (show (b.data.take k).length ≤ i by omega),
        htk,
        List.getElem?_append_right
          (show (secure_memset ((b.data.take b.len).drop k) 0).length ≤ i - k
            by omega),
        hmidlen, List.getElem?_drop,
        show b.len + (i - k - (b.len - k)) = i from by omega]
  · intro hk
    unfold Buffer.truncate
    rw [if_neg (by omega)]

/-- Witness for C2 on a concrete buffer: capacity 3, length 2,
truncated to 1. -/
theorem truncate_spec_witness :
    ((⟨[5, 6, 7], 2⟩ : Buffer 3).truncate 1).len = 1 ∧
    ((⟨[5, 6, 7], 2⟩ : Buffer 3).truncate 1).data[1]? = some 0 ∧
    ((⟨[5, 6, 7], 2⟩ : Buffer 3).truncate 1).data[0]? = some 5 ∧
    (⟨[5, 6, 7], 2⟩ : Buffer 3).truncate 2 = ⟨[5, 6, 7], 2⟩ := by
  have h := truncate_spec (⟨[5, 6, 7], 2⟩ : Buffer 3) 1 (by decide) (by decide)
  have h2 := truncate_spec (⟨[5, 6, 7], 2⟩ : Buffer 3) 2 (by decide) (by decide)
  exact ⟨(h.1 (by decide)).1,
    (h.1 (by decide)).2.2.1 1 (by decide) (by decide),
    (h.1 (by decide)).2.1 0 (by decide),
    h2.2 (by decide)⟩

/-- C3: `extend_from_slice` fails (returning the error value, modelled
as `none`, with the original buffer untouched) exactly when the slice
exceeds the remaining capacity; otherwise it appends the slice at
`[len, len + other.length)`, leaves all other stored bytes unchanged,
and advances the length — and appending the empty slice (even at full
capacity) succeeds and changes nothing. -/
theorem extend_from_slice_spec {N : Nat} (b : Buffer N) (other : List Nat)
    (hdata : b.data.length = N) (hlen : b.len ≤ N) :
    (N - b.len < other.length → b.extend_from_slice other = none) ∧
    (other.length ≤ N - b.len →
      ∃ b', b.extend_from_slice other = some b' ∧
        b'.len = b.len + other.length ∧
        b'.data.length = N ∧
        (∀ i, i < b.len → b'.data[i]? = b.data[i]?) ∧
        (∀ j, j < other.length → b'.data[b.len + j]? = other[j]?) ∧
        (∀ i, b.len + other.length ≤ i → b'.data[i]? = b.data[i]?)) ∧
    (other = [] → b.extend_from_slice other = some b) := by
  refine ⟨?_, ?_, ?_⟩
  · intro h
    unfold Buffer.extend_from_slice
    rw [if_neg (by omega)]
  · intro h
    have htk : (b.data.take b.len).length = b.len := by
      rw [List.length_take]
      omega
    refine ⟨⟨b.data.take b.len ++ other ++ b.data.drop (b.len + other.length),
      b.len + other.length⟩, ?_, rfl, ?_, ?_, ?_, ?_⟩
    · unfold Buffer.extend_from_slice
      rw [if_pos (by omega)]
    · simp only [List.length_append, List.length_take, List.length_drop]
      omega
    · intro i hi
      rw [List.append_assoc,
        List.getElem?_append_left (show i < (b.data.take b.len).length by omega),
        List.getElem?_take_of_lt hi]
    · intro j hj
      rw [List.append_assoc,
        List.getElem?_append_right
          (show (b.data.take b.len).length ≤ b.len + j by omega),
        htk, show b.len + j - b.len = j from by omega,
        List.getElem?_append_left hj]
    · intro i hi
      rw [List.append_assoc,
        List.getElem?_append_right
          (show (b.data.take b.len).length ≤ i by omega),
        htk,
        List.getElem?_append_right (show other.length ≤ i - b.len by omega),
        List.getElem?_drop,
        show b.len + other.length + (i - b.len - other.length) = i from by omega]
  · intro h
    subst h
    unfold Buffer.extend_from_slice
    rw [if_pos (by simp)]
    cases b with
    | mk data len => simp

/-- Witness for C3: capacity 4, length 2; a 3-byte append overflows and
fails, a 2-byte append fills the buffer exactly, and the empty append
at full length succeeds as a no-op. -/
theorem extend_from_slice_spec_witness :
    (⟨[1, 2, 0, 0], 2⟩ : Buffer 4).extend_from_slice [7, 8, 9] = none ∧
    (∃ b', (⟨[1, 2, 0, 0], 2⟩ : Buffer 4).extend_from_slice [7, 8] = some b' ∧
      b'.len = 2 + 2) ∧
    (⟨[1, 2, 3, 4], 4⟩ : Buffer 4).extend_from_slice []
      = some ⟨[1, 2, 3, 4], 4⟩ := by
  have h1 := extend_from_slice_spec (⟨[1, 2, 0, 0], 2⟩ : Buffer 4) [7, 8, 9]
    (by decide) (by decide)
  have h2 := extend_from_slice_spec (⟨[1, 2, 0, 0], 2⟩ : Buffer 4) [7, 8]
    (by decide) (by decide)
  have h3 := extend_from_slice_spec (⟨[1, 2, 3, 4], 4⟩ : Buffer 4) []
    (by decide) (by decide)
  obtain ⟨b', hb', hblen, _⟩ := h2.2.1 (by decide)
  exact ⟨h1.1 (by decide), ⟨b', hb', hblen⟩, h3.2.2 rfl⟩

/-- C7: the invariant `len ≤ N` holds for `Buffer::new` and is preserved
by `extend_from_slice` (both on success and on the error branch, where
the buffer is untouched) and by `truncate`. -/
theorem buffer_len_invariant (N : Nat) :
    (Buffer.new N).len ≤ N ∧
    (∀ b : Buffer N, b.len ≤ N →
      (∀ other b', b.extend_from_slice other = some b' → b'.len ≤ N) ∧
      (∀ other, b.extend_from_slice other = none → b.len ≤ N) ∧
      (∀ k, (b.truncate k).len ≤ N)) := by
  refine ⟨Nat.zero_le N, ?_⟩
  intro b hb
  refine ⟨?_, fun _ _ => hb, ?_⟩
  · intro other b' h
    unfold Buffer.extend_from_slice at h
    by_cases hc : other.length ≤ N - b.len
    · rw [if_pos hc] at h
      cases h
      show b.len + other.length ≤ N
      omega
    · rw [if_neg hc] at h
      cases h
  · intro k
    unfold Buffer.truncate
    by_cases hc : k < b.len
    · rw [if_pos hc]
      show k ≤ N
      omega
    · rw [if_neg hc]
      exact hb

/-- Witness for C7: fresh buffer of capacity 20, and a truncate on a
concrete buffer of capacity 3. -/
theorem buffer_len_invariant_witness :
    (Buffer.new 20).len ≤ 20 ∧
    ((⟨[1, 2, 3], 2⟩ : Buffer 3).truncate 9).len ≤ 3 := by
  have h20 := buffer_len_invariant 20
  have h3 := buffer_len_invariant 3
  exact ⟨h20.1, (h3.2 ⟨[1, 2, 3], 2⟩ (by decide)).2.2 9⟩

end Obfus
